import Mathlib

/-!
Verification of the patch-application core of `github_resolver/send_pull_request.py`.

File contents are modelled as `List Char` (the source reads bytes only to scan
for the ASCII sequences `\r\n` and `\n`, so a character-level model is faithful
for the properties below).  Pure functions of the source are translated
directly; the filesystem is an explicit association list; Python exceptions
become `Except` values.  The external library `whatthepatch` (its
`parse_patch` / `apply_diff`) is not part of this repository's sources, so its
hunk applier is modelled from the specification where a claim needs it; each
such definition is marked `Modelled from the spec:` in its doc comment.
-/

/-- Line-ending style detected from a file's bytes.  `Option Newline` with
`none` plays the role of the source's `newline = None` ("let Python decide"). -/
inductive Newline
  | crlf
  | lf
deriving DecidableEq

/-- True iff the content contains the two-character sequence CR LF anywhere.
Embeds the test `b'\r\n' in original_content` of `apply_patch`. -/
def containsCRLF : List Char → Bool
  | [] => false
  | c :: rest => (c == '\r' && rest.head? == some '\n') || containsCRLF rest

/-- The line-ending detector of `apply_patch` (send_pull_request.py lines
42-47): CRLF if `\r\n` occurs anywhere, else LF if a `\n` byte occurs, else
undetermined (`None` in the source). -/
def detectNewline (content : List Char) : Option Newline :=
  if containsCRLF content then some Newline.crlf
  else if '\n' ∈ content then some Newline.lf
  else none

/-- Python `str.lstrip(chars)`: drop leading characters while they belong to
the character set `cs`. -/
def lstripChars (cs s : List Char) : List Char :=
  s.dropWhile (fun c => cs.contains c)

/-- Python `str.strip(chars)`: drop characters of the set `cs` from both ends. -/
def stripChars (cs s : List Char) : List Char :=
  ((lstripChars cs ((lstripChars cs s).reverse)).reverse)

/-- The character set Python's `str.strip()` (argument `None`) removes:
ASCII whitespace. -/
def pyWhitespace : List Char := [' ', '\t', '\n', '\r', '\x0b', '\x0c']

/-- `f.readlines()` on a file opened with `newline='\n'`: split after every
`\n`, keeping the terminator on each line. -/
def readlinesLF : List Char → List (List Char)
  | [] => []
  | c :: rest =>
    if c = '\n' then ['\n'] :: readlinesLF rest
    else
      match readlinesLF rest with
      | [] => [[c]]
      | l :: ls => (c :: l) :: ls

/-- `f.readlines()` on a file opened with `newline='\r\n'`: split after every
`\r\n` pair, keeping the terminator on each line. -/
def readlinesCRLF : List Char → List (List Char)
  | [] => []
  | [c] => [[c]]
  | c :: d :: rest =>
    if c = '\r' ∧ d = '\n' then
      ['\r', '\n'] :: readlinesCRLF rest
    else
      match readlinesCRLF (d :: rest) with
      | [] => [[c]]
      | l :: ls => (c :: l) :: ls

/-- Universal-newline translation performed by Python when a file is opened
with `newline=None`: `\r\n` and lone `\r` both become `\n`. -/
def univNl : List Char → List Char
  | [] => []
  | [c] => if c = '\r' then ['\n'] else [c]
  | c :: d :: rest =>
    if c = '\r' then
      if d = '\n' then '\n' :: univNl rest else '\n' :: univNl (d :: rest)
    else c :: univNl (d :: rest)

/-- `f.readlines()` on a file opened with `newline=None`: universal-newline
translation followed by splitting on `\n`. -/
def readlinesNone (s : List Char) : List (List Char) :=
  readlinesLF (univNl s)

/-- Lines 49-50 of send_pull_request.py:
`split_content = [x.strip(newline) for x in f.readlines()]` with the file
opened as `open(old_path, 'r', newline=newline)`.  `strip('\r\n')` and
`strip('\n')` strip character sets from both ends; `strip(None)` strips
ASCII whitespace. -/
def splitContent : Option Newline → List Char → List (List Char)
  | some Newline.crlf, s => (readlinesCRLF s).map (stripChars ['\r', '\n'])
  | some Newline.lf, s => (readlinesLF s).map (stripChars ['\n'])
  | none, s => (readlinesNone s).map (stripChars pyWhitespace)

/-- The replacement string Python substitutes for each `'\n'` written to a
file opened with the given `newline` argument.  `newline='\n'` performs no
translation (identity, since the replacement is `'\n'` itself); `newline=None`
translates to `os.linesep`, which is `'\n'` on the POSIX platforms the tool
runs on. -/
def nlWriteRepl : Option Newline → List Char
  | some Newline.crlf => ['\r', '\n']
  | some Newline.lf => ['\n']
  | none => ['\n']

/-- Replace every `'\n'` of `s` by `repl` (Python's output newline
translation). -/
def translateNl (repl : List Char) : List Char → List Char
  | [] => []
  | c :: rest => (if c = '\n' then repl else [c]) ++ translateNl repl rest

/-- Lines 58-60 of send_pull_request.py: `print(line, file=f)` for each
reconstructed line, on a file opened with `open(new_path, 'w',
newline=newline)`.  `print` appends `'\n'` to each line and the open-mode
translation rewrites every `'\n'` to the chosen ending. -/
def writeLines (nl : Option Newline) : List (List Char) → List Char
  | [] => []
  | l :: rest => translateNl (nlWriteRepl nl) (l ++ ['\n']) ++ writeLines nl rest

/-- The terminator characters of a line-ending style. -/
def endChars : Newline → List Char
  | Newline.crlf => ['\r', '\n']
  | Newline.lf => ['\n']

/-- Join lines, terminating every line (including the last) with the ending
`e`.  This is the ideal byte form of a file that uses `e` consistently. -/
def joinLines (e : Newline) : List (List Char) → List Char
  | [] => []
  | l :: rest => l ++ endChars e ++ joinLines e rest

/-- One tagged line of a hunk (§3 of the spec: Context, Added or Removed,
carrying its text). -/
inductive TaggedLine
  | context (text : List Char)
  | added (text : List Char)
  | removed (text : List Char)
deriving DecidableEq

/-- A hunk (§3 of the spec): 1-based start lines and advisory counts, plus the
ordered tagged lines.  Per §4.3 the counts are advisory and the applier derives
positions by scanning, so they do not enter the applier below. -/
structure Hunk where
  old_start : Nat
  old_count : Nat
  new_start : Nat
  new_count : Nat
  lines : List TaggedLine
deriving DecidableEq

/-- The header of a per-file diff record: old and new paths, either of which
may be absent (`whatthepatch` yields `None`). -/
structure Header where
  old_path : Option (List Char)
  new_path : Option (List Char)
deriving DecidableEq

/-- A per-file diff record as consumed by `apply_patch` (spec §3 DiffRecord). -/
structure Diff where
  header : Header
  hunks : List Hunk
deriving DecidableEq

/-- Modelled from the spec: the tagged-line walk of `whatthepatch.apply_diff`
(§4.3), which is not among this repository's sources.  A Context line asserts
equality with the next original line, advances past it and appends it; an
Added line appends its text without consuming; a Removed line consumes the
next original line without appending.  Addressing past the end of the original
is a failure (`none`, the source's exception). -/
def walkHunk (orig : List (List Char)) : List TaggedLine → Nat → Option (List (List Char) × Nat)
  | [], cursor => some ([], cursor)
  | TaggedLine.context t :: rest, cursor =>
    match orig[cursor]? with
    | none => none
    | some x =>
      if x = t then
        match walkHunk orig rest (cursor + 1) with
        | none => none
        | some (out, c) => some (x :: out, c)
      else none
  | TaggedLine.added t :: rest, cursor =>
    match walkHunk orig rest cursor with
    | none => none
    | some (out, c) => some (t :: out, c)
  | TaggedLine.removed _ :: rest, cursor =>
    match orig[cursor]? with
    | none => none
    | some _ => walkHunk orig rest (cursor + 1)

/-- Modelled from the spec: the cursor loop of §4.3.  For each hunk in order,
copy the untouched original lines strictly before the hunk's (0-based) start
that have not yet been copied, walk the hunk's tagged lines, and after the
last hunk copy the remaining original lines verbatim.  A hunk starting before
the cursor or beyond the end of the original fails. -/
def applyHunksFrom (orig : List (List Char)) : List Hunk → Nat → Option (List (List Char))
  | [], cursor => some (orig.drop cursor)
  | h :: hs, cursor =>
    let start := h.old_start - 1
    if cursor ≤ start ∧ start ≤ orig.length then
      match walkHunk orig h.lines start with
      | none => none
      | some (out, c) =>
        match applyHunksFrom orig hs c with
        | none => none
        | some restOut => some ((orig.drop cursor).take (start - cursor) ++ out ++ restOut)
    else none

/-- Modelled from the spec: `whatthepatch.apply_diff(diff, split_content)`
(§4.3), applying the record's hunks to the original line sequence. -/
def apply_diff (d : Diff) (orig : List (List Char)) : Option (List (List Char)) :=
  applyHunksFrom orig d.hunks 0

/-- The filesystem, as a path-to-content association list. -/
def Fs : Type := List (List Char × List Char)

/-- Look a path up in the filesystem. -/
def fsGet : Fs → List Char → Option (List Char)
  | [], _ => none
  | (p, c) :: rest, q => if p = q then some c else fsGet rest q

/-- Create or overwrite the file at a path. -/
def fsSet : Fs → List Char → List Char → Fs
  | [], q, v => [(q, v)]
  | (p, c) :: rest, q, v => if p = q then (q, v) :: rest else (p, c) :: fsSet rest q v

/-- `os.path.join(repo_dir, rel)` for a relative second component. -/
def pjoin (dir rel : List Char) : List Char := dir ++ '/' :: rel

/-- The path `/dev/null`, denoting an absent side of a diff. -/
def devNull : List Char := ['/', 'd', 'e', 'v', '/', 'n', 'u', 'l', 'l']

/-- Python falsiness of an optional path (`not diff.header.new_path`):
absent or empty. -/
def falsy : Option (List Char) → Bool
  | none => true
  | some s => s.isEmpty

/-- The errors a per-file section can raise: the `open(old_path, 'rb')` read
failing, or `whatthepatch.apply_diff` failing on the hunks.  In the source
these are uncaught Python exceptions. -/
inductive PatchError
  | fileNotFound (path : List Char)
  | applyFailed (path : List Char)
deriving DecidableEq

/-- The body of `apply_patch`'s `for diff in diffs` loop (send_pull_request.py
lines 24-60) for one diff record: skip (with a warning print) when the new
path is falsy; resolve paths with `lstrip('b/')`; when the old path is truthy
and not `/dev/null`, read the old file, detect its line ending, split it, else
use an empty original and `newline='\n'`; apply the hunks and write the result
to the new path with the chosen newline. -/
def processDiff (repoDir : List Char) (fs : Fs) (d : Diff) : Except PatchError Fs :=
  if falsy d.header.new_path then Except.ok fs
  else
    let np := d.header.new_path.getD []
    let newPath := pjoin repoDir (lstripChars ['b', '/'] np)
    if falsy d.header.old_path ∨ d.header.old_path = some devNull then
      match apply_diff d [] with
      | none => Except.error (PatchError.applyFailed newPath)
      | some out => Except.ok (fsSet fs newPath (writeLines (some Newline.lf) out))
    else
      let op := d.header.old_path.getD []
      let oldPath := pjoin repoDir (lstripChars ['b', '/'] op)
      match fsGet fs oldPath with
      | none => Except.error (PatchError.fileNotFound oldPath)
      | some content =>
        let nl := detectNewline content
        match apply_diff d (splitContent nl content) with
        | none => Except.error (PatchError.applyFailed newPath)
        | some out => Except.ok (fsSet fs newPath (writeLines nl out))

/-- `apply_patch(repo_dir, patch)` over its parsed diff records: process the
records in order; an error (an uncaught exception in the source) aborts the
remaining records. -/
def apply_patch (repoDir : List Char) (fs : Fs) : List Diff → Except PatchError Fs
  | [] => Except.ok fs
  | d :: ds =>
    match processDiff repoDir fs d with
    | Except.error e => Except.error e
    | Except.ok fs2 => apply_patch repoDir fs2 ds

/-- The path-resolution step of `apply_patch` (lines 29-34):
`diff.header.old_path.lstrip('b/')` and `diff.header.new_path.lstrip('b/')`. -/
def resolvePath (p : List Char) : List Char := lstripChars ['b', '/'] p

/-- Remove the suffix `suf` from `l` when present. -/
def dropEnd (suf l : List Char) : List Char :=
  if suf.isSuffixOf l then l.take (l.length - suf.length) else l

/-- The ideal line decomposition of a file: its content split on the detected
ending with the terminators removed; with no detected ending, the whole
content is a single unterminated line (or no line at all when empty). -/
def splitLinesIdeal : Option Newline → List Char → List (List Char)
  | some Newline.crlf, s => (readlinesCRLF s).map (dropEnd ['\r', '\n'])
  | some Newline.lf, s => (readlinesLF s).map (dropEnd ['\n'])
  | none, s => if s.isEmpty then [] else [s]

/-- Modelled from the spec: the diff producer and the `whatthepatch` parser
and applier are not among this repository's sources.  By the invariant of §3
("applying all hunks of a record in order ... reconstructs the full new
sequence") and §4.3, applying the parsed hunks of the unified diff comparing
file A to file B against A's line sequence yields exactly B's new line
sequence: B's content split on B's line ending. -/
def diffNewLines (B : List Char) : List (List Char) :=
  splitLinesIdeal (detectNewline B) B

/-- The round trip of claim C1, composed from the source's detector and
materializer and the spec-modelled diff production and application: diff A
against B, apply the hunks to A's lines (yielding `diffNewLines B`), and
materialize with the line ending detected from A. -/
def roundTrip (A B : List Char) : List Char :=
  writeLines (detectNewline A) (diffNewLines B)

/-- One parsed line of the resolver-output JSONL file.  JSON decoding and
pydantic validation are outside the modelled scope: a line is given directly
as its issue number and payload (the git patch text). -/
structure ResolverRec where
  issueNumber : Int
  gitPatch : List Char
deriving DecidableEq

/-- The `ValueError` raised by `load_resolver_output`, naming the issue number
and the file it was not found in. -/
inductive LoadError
  | issueNotFound (issueNumber : Int) (file : List Char)
deriving DecidableEq

/-- `load_resolver_output(output_jsonl, issue_number)` (send_pull_request.py
lines 12-18): scan the file's lines in order, return the first record whose
issue number matches, raise `ValueError` naming the number and file when none
does. -/
def load_resolver_output (output_jsonl : List Char) (issue_number : Int) :
    List ResolverRec → Except LoadError ResolverRec
  | [] => Except.error (LoadError.issueNotFound issue_number output_jsonl)
  | r :: rest =>
    if r.issueNumber = issue_number then Except.ok r
    else load_resolver_output output_jsonl issue_number rest


theorem containsCRLF_iff (s : List Char) : containsCRLF s = true ↔ ['\r', '\n'] <:+: s := by
  induction s with
  | nil => simp [containsCRLF]
  | cons c rest ih =>
    simp only [containsCRLF, Bool.or_eq_true, Bool.and_eq_true, beq_iff_eq, ih]
    constructor
    · rintro (⟨rfl, hh⟩ | h)
      · cases rest with
        | nil => simp at hh
        | cons d r =>
          simp only [List.head?] at hh
          injection hh with hd
          subst hd
          exact ⟨[], r, rfl⟩
      · exact List.infix_cons h
    · rintro ⟨s, t, he⟩
      cases s with
      | nil =>
        simp only [List.nil_append, List.cons_append] at he
        injection he with h1 h2
        subst h1
        subst h2
        exact Or.inl ⟨rfl, rfl⟩
      | cons x s2 =>
        simp only [List.cons_append] at he
        injection he with h1 h2
        exact Or.inr ⟨s2, t, h2⟩

theorem containsCRLF_append_crlf (l t : List Char) :
    containsCRLF (l ++ '\r' :: '\n' :: t) = true := by
  induction l with
  | nil => simp [containsCRLF]
  | cons c cs ih => simp [containsCRLF, ih]

theorem containsCRLF_eq_false_of_no_cr (s : List Char) (h : '\r' ∉ s) :
    containsCRLF s = false := by
  induction s with
  | nil => rfl
  | cons c cs ih =>
    have hc : c ≠ '\r' := fun hc => h (by simp [hc])
    have hcs : '\r' ∉ cs := fun hm => h (List.mem_cons_of_mem _ hm)
    simp [containsCRLF, hc, ih hcs]

theorem translateNl_append (repl s t : List Char) :
    translateNl repl (s ++ t) = translateNl repl s ++ translateNl repl t := by
  induction s with
  | nil => rfl
  | cons c cs ih => simp [translateNl, ih, List.append_assoc]

theorem translateNl_of_no_lf (repl s : List Char) (h : '\n' ∉ s) :
    translateNl repl s = s := by
  induction s with
  | nil => rfl
  | cons c cs ih =>
    have hc : c ≠ '\n' := fun hc => h (by simp [hc])
    have hcs : '\n' ∉ cs := fun hm => h (List.mem_cons_of_mem _ hm)
    simp [translateNl, hc, ih hcs]

theorem translateNl_lf_id (s : List Char) : translateNl ['\n'] s = s := by
  induction s with
  | nil => rfl
  | cons c cs ih =>
    by_cases hc : c = '\n'
    · subst hc; simp [translateNl, ih]
    · simp [translateNl, hc, ih]

theorem translateNl_single_lf (repl : List Char) : translateNl repl ['\n'] = repl := by
  simp [translateNl]

theorem writeLines_none_eq (lines : List (List Char)) :
    writeLines none lines = (lines.map (fun l => l ++ ['\n'])).flatten := by
  induction lines with
  | nil => rfl
  | cons l rest ih => simp [writeLines, nlWriteRepl, translateNl_lf_id, ih]

theorem nlWriteRepl_eq_endChars (e : Newline) : nlWriteRepl (some e) = endChars e := by
  cases e <;> rfl

theorem writeLines_join (e : Newline) (lines : List (List Char))
    (h : ∀ l ∈ lines, '\n' ∉ l) :
    writeLines (some e) lines = joinLines e lines := by
  induction lines with
  | nil => rfl
  | cons l rest ih =>
    have h1 : '\n' ∉ l := h l (by simp)
    have h2 : ∀ m ∈ rest, '\n' ∉ m := fun m hm => h m (by simp [hm])
    show translateNl (nlWriteRepl (some e)) (l ++ ['\n']) ++ writeLines (some e) rest =
      l ++ endChars e ++ joinLines e rest
    rw [translateNl_append, translateNl_of_no_lf _ _ h1, translateNl_single_lf,
      ih h2, nlWriteRepl_eq_endChars, List.append_assoc]

theorem readlinesLF_cons_line (l rest : List Char) (h : '\n' ∉ l) :
    readlinesLF (l ++ '\n' :: rest) = (l ++ ['\n']) :: readlinesLF rest := by
  induction l with
  | nil => simp [readlinesLF]
  | cons c cs ih =>
    have hc : c ≠ '\n' := fun hc => h (by simp [hc])
    have hcs : '\n' ∉ cs := fun hm => h (List.mem_cons_of_mem _ hm)
    simp only [List.cons_append, readlinesLF, hc, if_false, List.append_eq]
    rw [ih hcs]

theorem readlinesLF_join (lines : List (List Char)) (h : ∀ l ∈ lines, '\n' ∉ l) :
    readlinesLF (joinLines Newline.lf lines) = lines.map (fun l => l ++ ['\n']) := by
  induction lines with
  | nil => rfl
  | cons l rest ih =>
    have h1 : '\n' ∉ l := h l (by simp)
    have h2 : ∀ m ∈ rest, '\n' ∉ m := fun m hm => h m (by simp [hm])
    show readlinesLF (l ++ endChars Newline.lf ++ joinLines Newline.lf rest) = _
    rw [List.append_assoc]
    show readlinesLF (l ++ '\n' :: joinLines Newline.lf rest) = _
    rw [readlinesLF_cons_line l _ h1, ih h2]
    rfl

theorem readlinesCRLF_cons_line (l rest : List Char) (h : '\r' ∉ l) :
    readlinesCRLF (l ++ '\r' :: '\n' :: rest) = (l ++ ['\r', '\n']) :: readlinesCRLF rest := by
  induction l with
  | nil => simp [readlinesCRLF]
  | cons c cs ih =>
    have hc : c ≠ '\r' := fun hc => h (by simp [hc])
    have hcs : '\r' ∉ cs := fun hm => h (List.mem_cons_of_mem _ hm)
    cases cs with
    | nil =>
      show readlinesCRLF (c :: '\r' :: '\n' :: rest) = _
      have hcond : ¬(c = '\r' ∧ '\r' = '\n') := fun hx => hc hx.1
      simp [readlinesCRLF, hcond]
    | cons x xs =>
      have hih := ih hcs
      show readlinesCRLF (c :: (x :: xs ++ '\r' :: '\n' :: rest)) = _
      have hcond : ¬(c = '\r' ∧ x = '\n') := fun hx => hc hx.1
      simp only [readlinesCRLF, hcond, if_false, List.cons_append, List.append_eq] at hih ⊢
      rw [hih]

theorem readlinesCRLF_join (lines : List (List Char)) (h : ∀ l ∈ lines, '\r' ∉ l) :
    readlinesCRLF (joinLines Newline.crlf lines) = lines.map (fun l => l ++ ['\r', '\n']) := by
  induction lines with
  | nil => rfl
  | cons l rest ih =>
    have h1 : '\r' ∉ l := h l (by simp)
    have h2 : ∀ m ∈ rest, '\r' ∉ m := fun m hm => h m (by simp [hm])
    show readlinesCRLF (l ++ endChars Newline.crlf ++ joinLines Newline.crlf rest) = _
    rw [List.append_assoc]
    show readlinesCRLF (l ++ '\r' :: '\n' :: joinLines Newline.crlf rest) = _
    rw [readlinesCRLF_cons_line l _ h1, ih h2]
    rfl

theorem dropEnd_append (suf l : List Char) : dropEnd suf (l ++ suf) = l := by
  unfold dropEnd
  rw [if_pos]
  · rw [List.length_append, Nat.add_sub_cancel, List.take_left]
  · exact List.isSuffixOf_iff_suffix.mpr ⟨l, rfl⟩

theorem mem_joinLines {c : Char} {e : Newline} {lines : List (List Char)}
    (h : c ∈ joinLines e lines) : (∃ l ∈ lines, c ∈ l) ∨ c ∈ endChars e := by
  induction lines with
  | nil => cases h
  | cons l rest ih =>
    simp only [joinLines] at h
    rcases List.mem_append.mp h with h1 | h2
    · rcases List.mem_append.mp h1 with ha | hb
      · exact Or.inl ⟨l, by simp, ha⟩
      · exact Or.inr hb
    · rcases ih h2 with ⟨m, hm, hc⟩ | hb
      · exact Or.inl ⟨m, by simp [hm], hc⟩
      · exact Or.inr hb

/-- C3: for every byte string given to the line-ending detector, if it
contains the two-byte sequence CR LF anywhere the result is CRLF; otherwise if
it contains a bare LF byte the result is LF; otherwise the result is None. -/
theorem detect_newline_cases (content : List Char) :
    (['\r', '\n'] <:+: content → detectNewline content = some Newline.crlf) ∧
    (¬ ['\r', '\n'] <:+: content → '\n' ∈ content → detectNewline content = some Newline.lf) ∧
    (¬ ['\r', '\n'] <:+: content → '\n' ∉ content → detectNewline content = none) := by
  refine ⟨fun h => ?_, fun h1 h2 => ?_, fun h1 h2 => ?_⟩
  · have hc : containsCRLF content = true := (containsCRLF_iff content).mpr h
    simp [detectNewline, hc]
  · have hc : containsCRLF content = false := by
      cases hb : containsCRLF content
      · rfl
      · exact absurd ((containsCRLF_iff content).mp hb) h1
    simp [detectNewline, hc, h2]
  · have hc : containsCRLF content = false := by
      cases hb : containsCRLF content
      · rfl
      · exact absurd ((containsCRLF_iff content).mp hb) h1
    simp [detectNewline, hc, h2]

/-- Witness for C3 at the concrete content `"a\r\nb"`. -/
theorem detect_newline_cases_witness :
    (['\r', '\n'] <:+: ['a', '\r', '\n', 'b']) ∧
    detectNewline ['a', '\r', '\n', 'b'] = some Newline.crlf :=
  ⟨by decide, (detect_newline_cases ['a', '\r', '\n', 'b']).1 (by decide)⟩

/-- C4: for every file content containing neither CR LF nor a bare LF byte,
the detector returns the None style; and with that style the materializer
joins and terminates every reconstructed output line with LF (the write-mode
newline translation to `os.linesep` being the identity on POSIX). -/
theorem detect_none_defaults_lf (content : List Char) (lines : List (List Char))
    (h1 : ¬ ['\r', '\n'] <:+: content) (h2 : '\n' ∉ content) :
    detectNewline content = none ∧
    writeLines (detectNewline content) lines = (lines.map (fun l => l ++ ['\n'])).flatten := by
  have hd : detectNewline content = none := by
    have hc : containsCRLF content = false := by
      cases hb : containsCRLF content
      · rfl
      · exact absurd ((containsCRLF_iff content).mp hb) h1
    simp [detectNewline, hc, h2]
  exact ⟨hd, by rw [hd, writeLines_none_eq]⟩

/-- Witness for C4 at the content `"x\r"` (a lone CR, no LF) and one line. -/
theorem detect_none_defaults_lf_witness :
    detectNewline ['x', '\r'] = none ∧
    writeLines (detectNewline ['x', '\r']) [['h']] =
      (([['h']] : List (List Char)).map (fun l => l ++ ['\n'])).flatten :=
  detect_none_defaults_lf ['x', '\r'] [['h']]
    (fun h => absurd ((containsCRLF_iff _).mpr h) (by decide)) (by decide)

/-- C7: the materializer follows every output line — including the last — by
the chosen line-ending sequence, so the written file always ends with a
trailing newline (whenever at least one line is written). -/
theorem write_lines_terminates_every_line (nl : Option Newline) (lines : List (List Char)) :
    writeLines nl lines =
      (lines.map (fun l => translateNl (nlWriteRepl nl) l ++ nlWriteRepl nl)).flatten ∧
    (lines ≠ [] → nlWriteRepl nl <:+ writeLines nl lines) := by
  constructor
  · induction lines with
    | nil => rfl
    | cons l rest ih =>
      show translateNl (nlWriteRepl nl) (l ++ ['\n']) ++ writeLines nl rest = _
      rw [translateNl_append, translateNl_single_lf, ih]
      rfl
  · induction lines with
    | nil => intro h; exact absurd rfl h
    | cons l rest ih =>
      intro _
      cases rest with
      | nil =>
        refine ⟨translateNl (nlWriteRepl nl) l, ?_⟩
        show _ = translateNl (nlWriteRepl nl) (l ++ ['\n']) ++ writeLines nl []
        rw [translateNl_append, translateNl_single_lf]
        simp [writeLines]
      | cons m ms =>
        rcases ih (by simp) with ⟨w, hw⟩
        refine ⟨translateNl (nlWriteRepl nl) (l ++ ['\n']) ++ w, ?_⟩
        show _ = translateNl (nlWriteRepl nl) (l ++ ['\n']) ++ writeLines nl (m :: ms)
        rw [List.append_assoc, hw]

/-- Witness for C7: two lines written in CRLF mode; the output ends in CRLF. -/
theorem write_lines_terminates_every_line_witness :
    nlWriteRepl (some Newline.crlf) <:+ writeLines (some Newline.crlf) [['a'], ['b']] :=
  (write_lines_terminates_every_line (some Newline.crlf) [['a'], ['b']]).2 (by decide)

/-- C10: `load_resolver_output` returns the record of the first line whose
issue number equals the requested one, and fails with a `ValueError` naming
the issue number and the file when no line matches. -/
theorem load_resolver_output_first_match (file : List Char) (n : Int) (lines : List ResolverRec) :
    load_resolver_output file n lines =
      match lines.find? (fun r => decide (r.issueNumber = n)) with
      | some r => Except.ok r
      | none => Except.error (LoadError.issueNotFound n file) := by
  induction lines with
  | nil => rfl
  | cons r rest ih =>
    by_cases h : r.issueNumber = n
    · simp [load_resolver_output, List.find?, h]
    · simp [load_resolver_output, List.find?, h, ih]

/-- C2 (code bug evidence): the source resolves paths with
`lstrip('b/')`, which removes every leading `'b'` or `'/'` character rather
than the single two-character prefix, and never removes an `a/` prefix.
`"b/bar.txt"` resolves to `"ar.txt"` instead of `"bar.txt"`; `"a/foo"` keeps
its prefix; the prefix-free `"builds/x"` is not left unchanged. -/
theorem resolve_path_lstrip_bug :
    resolvePath "b/bar.txt".toList = "ar.txt".toList ∧
    resolvePath "a/foo".toList = "a/foo".toList ∧
    resolvePath "builds/x".toList = "uilds/x".toList := by
  decide

/-- C8 (code bug evidence): splitting an original file removes more than the
detected line ending.  For content `"  hi"` (no line ending detected) the
source strips ASCII whitespace, yielding `"hi"` instead of `"  hi"`; for CRLF
content `"ab\r\r\n"` it strips every boundary CR/LF, yielding `"ab"` instead
of `"ab\r"`. -/
theorem split_content_strips_more :
    splitContent (detectNewline "  hi".toList) "  hi".toList = ["hi".toList] ∧
    splitContent (detectNewline "ab\r\r\n".toList) "ab\r\r\n".toList = ["ab".toList] := by
  decide

/-- C5: a diff section whose new path is unresolvable (absent or empty) is
skipped by `apply_patch` — the result over any diff list containing it equals
the result over the same list with the section removed, so every other section
still applies, wherever the bad section sits. -/
theorem apply_patch_skips_missing_new_path (repoDir : List Char) (fs : Fs)
    (pre post : List Diff) (d : Diff) (h : falsy d.header.new_path = true) :
    apply_patch repoDir fs (pre ++ d :: post) = apply_patch repoDir fs (pre ++ post) := by
  induction pre generalizing fs with
  | nil => simp [apply_patch, processDiff, h]
  | cons p pre ih =>
    show (match processDiff repoDir fs p with
        | Except.error e => Except.error e
        | Except.ok fs2 => apply_patch repoDir fs2 (pre ++ d :: post)) =
      (match processDiff repoDir fs p with
        | Except.error e => Except.error e
        | Except.ok fs2 => apply_patch repoDir fs2 (pre ++ post))
    cases processDiff repoDir fs p with
    | error e => rfl
    | ok fs2 => exact ih fs2

/-- Witness for C5: a record with an absent new path sitting between two
creation records is skipped and both neighbours still apply. -/
theorem apply_patch_skips_missing_new_path_witness :
    falsy (Header.mk none none).new_path = true ∧
    apply_patch ['r'] []
        ([⟨⟨some devNull, some ['u']⟩, [⟨0, 0, 1, 1, [TaggedLine.added ['a']]⟩]⟩] ++
          ⟨⟨none, none⟩, []⟩ ::
          [⟨⟨some devNull, some ['v']⟩, [⟨0, 0, 1, 1, [TaggedLine.added ['b']]⟩]⟩]) =
      apply_patch ['r'] []
        ([⟨⟨some devNull, some ['u']⟩, [⟨0, 0, 1, 1, [TaggedLine.added ['a']]⟩]⟩] ++
          [⟨⟨some devNull, some ['v']⟩, [⟨0, 0, 1, 1, [TaggedLine.added ['b']]⟩]⟩]) :=
  ⟨rfl, apply_patch_skips_missing_new_path ['r'] [] _ _ ⟨⟨none, none⟩, []⟩ rfl⟩

/-- C6: for a file section whose old path is `/dev/null` (pure creation), the
hunk applier receives an empty original sequence and the chosen line ending is
LF; in particular a single hunk of Added lines `hello`, `world` writes the new
file with content exactly `"hello\nworld\n"`. -/
theorem dev_null_creates_with_lf (repoDir : List Char) (fs : Fs) (np : List Char)
    (hunks : List Hunk) (hnp : np ≠ []) :
    (processDiff repoDir fs ⟨⟨some devNull, some np⟩, hunks⟩ =
      match apply_diff ⟨⟨some devNull, some np⟩, hunks⟩ [] with
      | none => Except.error (PatchError.applyFailed (pjoin repoDir (lstripChars ['b', '/'] np)))
      | some out => Except.ok (fsSet fs (pjoin repoDir (lstripChars ['b', '/'] np))
          (writeLines (some Newline.lf) out))) ∧
    processDiff repoDir fs ⟨⟨some devNull, some np⟩,
        [⟨0, 0, 1, 2, [TaggedLine.added ['h', 'e', 'l', 'l', 'o'],
          TaggedLine.added ['w', 'o', 'r', 'l', 'd']]⟩]⟩ =
      Except.ok (fsSet fs (pjoin repoDir (lstripChars ['b', '/'] np))
        ['h', 'e', 'l', 'l', 'o', '\n', 'w', 'o', 'r', 'l', 'd', '\n']) := by
  have hf : falsy (some np) = false := by
    cases np with
    | nil => exact absurd rfl hnp
    | cons c l => rfl
  have hbranch : ∀ hks : List Hunk,
      processDiff repoDir fs ⟨⟨some devNull, some np⟩, hks⟩ =
        match apply_diff ⟨⟨some devNull, some np⟩, hks⟩ [] with
        | none => Except.error (PatchError.applyFailed (pjoin repoDir (lstripChars ['b', '/'] np)))
        | some out => Except.ok (fsSet fs (pjoin repoDir (lstripChars ['b', '/'] np))
            (writeLines (some Newline.lf) out)) := by
    intro hks
    simp [processDiff, hf]
  refine ⟨hbranch hunks, ?_⟩
  rw [hbranch [⟨0, 0, 1, 2, [TaggedLine.added ['h', 'e', 'l', 'l', 'o'],
    TaggedLine.added ['w', 'o', 'r', 'l', 'd']]⟩]]
  rfl

/-- Witness for C6: creation of `n` from `/dev/null` in an empty filesystem. -/
theorem dev_null_creates_with_lf_witness :
    processDiff ['r'] [] ⟨⟨some devNull, some ['n']⟩,
        [⟨0, 0, 1, 2, [TaggedLine.added ['h', 'e', 'l', 'l', 'o'],
          TaggedLine.added ['w', 'o', 'r', 'l', 'd']]⟩]⟩ =
      Except.ok (fsSet [] (pjoin ['r'] (lstripChars ['b', '/'] ['n']))
        ['h', 'e', 'l', 'l', 'o', '\n', 'w', 'o', 'r', 'l', 'd', '\n']) :=
  (dev_null_creates_with_lf ['r'] [] ['n'] [] (by decide)).2

/-- C9 (counterexample): failures are not isolated to one file section.  With
an original file `"a\n"` at `x`, a first section whose Context line mismatches
fails, and `apply_patch` stops with that error: the second (valid, creation)
section — which succeeds when run alone — is never attempted. -/
theorem apply_patch_not_isolated_cex :
    apply_patch ['r'] [(['r', '/', 'x'], ['a', '\n'])]
        [⟨⟨some ['x'], some ['x']⟩, [⟨1, 1, 1, 1, [TaggedLine.context ['z']]⟩]⟩,
         ⟨⟨some devNull, some ['y']⟩, [⟨0, 0, 1, 1, [TaggedLine.added ['h', 'i']]⟩]⟩] =
      Except.error (PatchError.applyFailed ['r', '/', 'x']) ∧
    apply_patch ['r'] [(['r', '/', 'x'], ['a', '\n'])]
        [⟨⟨some devNull, some ['y']⟩, [⟨0, 0, 1, 1, [TaggedLine.added ['h', 'i']]⟩]⟩] =
      Except.ok [(['r', '/', 'x'], ['a', '\n']), (['r', '/', 'y'], ['h', 'i', '\n'])] :=
  ⟨rfl, rfl⟩

/-- C9 (amended): only sections lacking a resolvable new path are isolated; a
per-file read or application error aborts `apply_patch` at once — the error
propagates and no later section is attempted. -/
theorem apply_patch_error_aborts (repoDir : List Char) (fs : Fs) (d : Diff)
    (ds : List Diff) (e : PatchError) (h : processDiff repoDir fs d = Except.error e) :
    apply_patch repoDir fs (d :: ds) = Except.error e := by
  show (match processDiff repoDir fs d with
    | Except.error e => Except.error e
    | Except.ok fs2 => apply_patch repoDir fs2 ds) = _
  rw [h]

/-- Witness for C9's amended statement: a section whose old file is missing
aborts the run before a later section. -/
theorem apply_patch_error_aborts_witness :
    apply_patch ['r'] [] [⟨⟨some ['q'], some ['q']⟩, []⟩, ⟨⟨none, none⟩, []⟩] =
      Except.error (PatchError.fileNotFound ['r', '/', 'q']) :=
  apply_patch_error_aborts ['r'] [] ⟨⟨some ['q'], some ['q']⟩, []⟩ [⟨⟨none, none⟩, []⟩]
    (PatchError.fileNotFound ['r', '/', 'q']) rfl

/-- C1 (counterexample): the round trip is not byte-for-byte for every pair of
files.  For A = `"x\n"` and B = `"y"` (no trailing newline), the materializer
terminates the reconstructed line, producing `"y\n"`, not B. -/
theorem round_trip_cex : roundTrip ['x', '\n'] ['y'] ≠ ['y'] := by decide

/-- C1 (amended): the round trip is exact whenever B is a sequence of lines
each terminated by the line ending detected from A, with no CR or LF
characters inside any line; for a B not of this form (for example one with no
final newline) the written result can differ by the appended terminator. -/
theorem round_trip_of_consistent (A : List Char) (e : Newline) (lines : List (List Char))
    (hA : detectNewline A = some e)
    (hl : ∀ l ∈ lines, '\n' ∉ l ∧ '\r' ∉ l) :
    roundTrip A (joinLines e lines) = joinLines e lines := by
  unfold roundTrip
  rw [hA]
  cases lines with
  | nil => cases e <;> rfl
  | cons l0 rest0 =>
    have hdet : detectNewline (joinLines e (l0 :: rest0)) = some e := by
      cases e with
      | crlf =>
        have hc : containsCRLF (joinLines Newline.crlf (l0 :: rest0)) = true := by
          show containsCRLF (l0 ++ endChars Newline.crlf ++ joinLines Newline.crlf rest0) = true
          rw [List.append_assoc]
          exact containsCRLF_append_crlf l0 _
        simp [detectNewline, hc]
      | lf =>
        have hnoR : '\r' ∉ joinLines Newline.lf (l0 :: rest0) := by
          intro hmem
          rcases mem_joinLines hmem with ⟨m, hm, hc⟩ | hb
          · exact (hl m hm).2 hc
          · simp [endChars] at hb
        have hcf : containsCRLF (joinLines Newline.lf (l0 :: rest0)) = false :=
          containsCRLF_eq_false_of_no_cr _ hnoR
        have hmemLF : '\n' ∈ joinLines Newline.lf (l0 :: rest0) := by
          show '\n' ∈ l0 ++ endChars Newline.lf ++ joinLines Newline.lf rest0
          exact List.mem_append.mpr (Or.inl (List.mem_append.mpr (Or.inr (by simp [endChars]))))
        simp [detectNewline, hcf, hmemLF]
    have hsplit : diffNewLines (joinLines e (l0 :: rest0)) = l0 :: rest0 := by
      unfold diffNewLines
      rw [hdet]
      cases e with
      | crlf =>
        show (readlinesCRLF (joinLines Newline.crlf (l0 :: rest0))).map (dropEnd ['\r', '\n']) =
          l0 :: rest0
        rw [readlinesCRLF_join _ (fun m hm => (hl m hm).2), List.map_map]
        have : ∀ m ∈ l0 :: rest0, (dropEnd ['\r', '\n'] ∘ fun l => l ++ ['\r', '\n']) m = id m :=
          fun m _ => dropEnd_append ['\r', '\n'] m
        rw [List.map_congr_left this, List.map_id]
      | lf =>
        show (readlinesLF (joinLines Newline.lf (l0 :: rest0))).map (dropEnd ['\n']) =
          l0 :: rest0
        rw [readlinesLF_join _ (fun m hm => (hl m hm).1), List.map_map]
        have : ∀ m ∈ l0 :: rest0, (dropEnd ['\n'] ∘ fun l => l ++ ['\n']) m = id m :=
          fun m _ => dropEnd_append ['\n'] m
        rw [List.map_congr_left this, List.map_id]
    rw [hsplit]
    exact writeLines_join e (l0 :: rest0) (fun m hm => (hl m hm).1)

/-- Witness for C1's amended statement: a CRLF original and a two-line CRLF
target round-trip exactly. -/
theorem round_trip_of_consistent_witness :
    detectNewline ['x', '\r', '\n'] = some Newline.crlf ∧
    roundTrip ['x', '\r', '\n'] (joinLines Newline.crlf [['a'], ['b']]) =
      joinLines Newline.crlf [['a'], ['b']] :=
  ⟨by decide, round_trip_of_consistent ['x', '\r', '\n'] Newline.crlf [['a'], ['b']]
    (by decide) (by decide)⟩
